import Mathlib

/-!
# Verification of the `reference` k-mer counting pipeline

Shallow embedding of the core of the repository:

* `src/reference/kmer_codec.rs`   — radix-5 rolling encoder, width selection, decoder
* `src/reference/blacklist.rs`    — interval merge, overlap fraction, sequence masking
* `src/reference/counting.rs`     — windowed counting scan (library version)
* `src/bin/reference.rs`          — windowed counting scan (binary version)
* `src/reference/process_counts.rs` — reverse complement / canonical motif folding
* `src/reference/write.rs`        — sparse COO triple construction

Byte sequences are modelled as `List Nat` (byte values), `u64` arithmetic is
modelled as `Nat` with explicit reduction modulo `2^64` wherever the Rust code
performs wrapping-capable `u64` operations.
-/

namespace Reference

/-- Modulus of Rust `u64` arithmetic. -/
def M64 : Nat := 2 ^ 64

/-- Wrapping `u64` addition. -/
def wadd (a b : Nat) : Nat := (a + b) % M64

/-- Wrapping `u64` multiplication. -/
def wmul (a b : Nat) : Nat := (a * b) % M64

/-- Wrapping `u64` subtraction: `a.wrapping_sub b = (a - b) mod 2^64`. -/
def wsub (a b : Nat) : Nat := (a + (M64 - b % M64)) % M64

/-! ## KmerCodec (`src/reference/kmer_codec.rs`) -/

/-- `pub const BASES: [char; 5] = ['A', 'C', 'G', 'T', 'N'];` -/
def BASES : List Char := ['A', 'C', 'G', 'T', 'N']

/-- The ASCII→radix-5 lookup table `LUT` / `encode_base`:
`A/a → 0, C/c → 1, G/g → 2, T/t → 3`, anything else → 4. -/
def encode_base (b : Nat) : Nat :=
  if b = 65 ∨ b = 97 then 0
  else if b = 67 ∨ b = 99 then 1
  else if b = 71 ∨ b = 103 then 2
  else if b = 84 ∨ b = 116 then 3
  else 4

/-- A byte is one of the eight ACGT bytes (upper or lower case). -/
def isACGT (b : Nat) : Prop := encode_base b ≠ 4

instance (b : Nat) : Decidable (isACGT b) := by
  unfold isACGT; infer_instance

/-- The uppercase letter of an A/C/G/T byte (specification-side helper used to
state the round-trip claim; returns 'N' on non-ACGT bytes). -/
def upperBase (b : Nat) : Char :=
  if b = 65 ∨ b = 97 then 'A'
  else if b = 67 ∨ b = 99 then 'C'
  else if b = 71 ∨ b = 103 then 'G'
  else if b = 84 ∨ b = 116 then 'T'
  else 'N'

/-- Storage width of a code vector (`enum Width`). -/
inductive Width : Type
  | U8 : Width
  | U16 : Width
  | U32 : Width
  | U64 : Width
deriving DecidableEq, Repr

/-- `MAX` value of each width. -/
def Width.maxv : Width → Nat
  | .U8 => 2 ^ 8 - 1
  | .U16 => 2 ^ 16 - 1
  | .U32 => 2 ^ 32 - 1
  | .U64 => 2 ^ 64 - 1

/-- `choose_width` from `kmer_codec.rs`: the narrowest width whose `MAX - 2`
is at least `5^k - 1`, together with the two sentinels `(MAX, MAX - 1)`.
The Rust code computes `5^k` in `u128`, which cannot overflow for any `k`
reachable in the program (`build_kmer_specs` rejects `k > 27`), so exact `Nat`
arithmetic is a faithful model. Returns `none` where Rust `bail!`s. -/
def choose_width (k : Nat) : Option (Width × Nat × Nat) :=
  let max_real_code := 5 ^ k - 1
  if max_real_code ≤ Width.U8.maxv - 2 then
    some (Width.U8, Width.U8.maxv, Width.U8.maxv - 1)
  else if max_real_code ≤ Width.U16.maxv - 2 then
    some (Width.U16, Width.U16.maxv, Width.U16.maxv - 1)
  else if max_real_code ≤ Width.U32.maxv - 2 then
    some (Width.U32, Width.U32.maxv, Width.U32.maxv - 1)
  else if max_real_code ≤ Width.U64.maxv - 2 then
    some (Width.U64, Width.U64.maxv, Width.U64.maxv - 1)
  else
    none

/-- One encoder/decoder specification (`struct KmerSpec`). -/
structure KmerSpec where
  k : Nat
  width : Width
  sentinel_none : Nat
  sentinel_n : Nat
deriving DecidableEq, Repr

/-- `build_kmer_specs`: validate every requested k (positive, at most 27, no
duplicates), choose a width for it, and collect the resulting specs.  The Rust
`HashMap`/`HashSet` pair is modelled as an association list plus a seen list;
`bail!` branches are `none`. -/
def build_kmer_specs_aux (seen : List Nat) (acc : List (Nat × KmerSpec)) :
    List Nat → Option (List (Nat × KmerSpec))
  | [] => some acc
  | k :: rest =>
    if k < 1 then none
    else if 27 < k then none
    else if k ∈ seen then none
    else
      match choose_width k with
      | none => none
      | some (w, s_none, s_n) =>
          build_kmer_specs_aux (k :: seen) (acc ++ [(k, ⟨k, w, s_none, s_n⟩)]) rest

/-- Entry point matching `pub fn build_kmer_specs(kmer_sizes: &[u8])`. -/
def build_kmer_specs (kmer_sizes : List Nat) : Option (List (Nat × KmerSpec)) :=
  build_kmer_specs_aux [] [] kmer_sizes

/-- Radix-5 value of a window, most-significant digit first: the
specification-side meaning of "the radix-5 code of that window"
(`code = code * 5 + val` over the window, in exact arithmetic). -/
def windowVal (w : List Nat) : Nat :=
  w.foldl (fun a b => a * 5 + encode_base b) 0

/-- Number of non-ACGT ("N") bases in a window (the `n_in_window` counter). -/
def countN (w : List Nat) : Nat :=
  w.countP (fun b => decide (encode_base b = 4))

/-- The first loop of `build_codes`: fold the first k bases into the rolling
code (wrapping u64 arithmetic) while counting 'N' digits. -/
def init_scan (w : List Nat) : Nat × Nat :=
  w.foldl
    (fun acc b =>
      let v := encode_base b
      (wadd (wmul acc.1 5) v, acc.2 + if v = 4 then 1 else 0))
    (0, 0)

/-- The sliding loop of `build_codes`.  `outs` starts at the left end of the
current window, `ins` at the incoming base (`ins = outs.drop k` throughout a
run); `hp` is `5^(k-1)` (the weight of the left-most digit), `code` the rolling
code and `n` the `n_in_window` counter.  The `u32` decrement of `n` never
underflows because `n` always counts the 'N's actually inside the window, so
plain `Nat` subtraction is faithful. -/
def slide (s_n hp : Nat) : List Nat → List Nat → Nat → Nat → List Nat
  | o :: outs, b :: ins, code, n =>
    let val_left := encode_base o
    let n1 := n - (if val_left = 4 then 1 else 0)
    let code1 := wadd (wmul (wsub code (wmul val_left hp)) 5) (encode_base b)
    let n2 := n1 + (if encode_base b = 4 then 1 else 0)
    (if 0 < n2 then s_n else code1) :: slide s_n hp outs ins code1 n2
  | _, _, _, _ => []

/-- `fn build_codes(seq, k, sentinel_none, sentinel_n) -> Vec<u64>`:
one code per position; `sentinel_n` for windows containing an 'N', the rolling
radix-5 code otherwise, and `sentinel_none` for the trailing `k-1` positions
(or everywhere when `k` exceeds the sequence length). -/
def build_codes (seq : List Nat) (k s_none s_n : Nat) : List Nat :=
  if seq.length < k then List.replicate seq.length s_none
  else
    ((if 0 < (init_scan (seq.take k)).2 then s_n else (init_scan (seq.take k)).1) ::
        slide s_n (5 ^ (k - 1)) seq (seq.drop k)
          (init_scan (seq.take k)).1 (init_scan (seq.take k)).2)
      ++ List.replicate (k - 1) s_none

/-- The digit-extraction loop of `decode_kmer`: `k` letters, least-significant
digit rightmost (`buf[pos] = BASES[tmp % 5]; tmp /= 5` for `pos = k-1 .. 0`). -/
def decode_digits : Nat → Nat → List Char
  | _, 0 => []
  | code, k + 1 => decode_digits (code / 5) k ++ [BASES.getD (code % 5) 'N']

/-- `fn decode_kmer(code, k, sentinel_none, sentinel_n) -> String`
(the string is modelled as its character list). -/
def decode_kmer (code k s_none s_n : Nat) : List Char :=
  if code = s_none ∨ code = s_n then List.replicate k 'N'
  else decode_digits code k

/-- Specification-side abbreviation: the value `build_codes` emits for a full
window `w` — `sentinel_n` when the window contains a non-ACGT byte, its
radix-5 value otherwise. -/
def emit (s_n : Nat) (w : List Nat) : Nat :=
  if 0 < countN w then s_n else windowVal w

theorem encode_base_lt5 (b : Nat) : encode_base b < 5 := by
  unfold encode_base; split_ifs <;> omega

theorem windowVal_foldl (w : List Nat) (c : Nat) :
    w.foldl (fun a b => a * 5 + encode_base b) c = c * 5 ^ w.length + windowVal w := by
  induction w generalizing c with
  | nil => simp [windowVal]
  | cons x w ih =>
    have hx : windowVal (x :: w) = encode_base x * 5 ^ w.length + windowVal w := by
      show List.foldl _ (0 * 5 + encode_base x) w = _
      rw [ih]; ring_nf
    simp only [List.foldl_cons, List.length_cons]
    rw [ih, hx]; ring

theorem windowVal_cons (x : Nat) (w : List Nat) :
    windowVal (x :: w) = encode_base x * 5 ^ w.length + windowVal w := by
  show List.foldl _ (0 * 5 + encode_base x) w = _
  rw [windowVal_foldl]; ring_nf

theorem windowVal_concat (w : List Nat) (b : Nat) :
    windowVal (w ++ [b]) = windowVal w * 5 + encode_base b := by
  simp [windowVal, List.foldl_append]

theorem windowVal_lt (w : List Nat) : windowVal w < 5 ^ w.length := by
  induction w with
  | nil => simp [windowVal]
  | cons x w ih =>
    rw [windowVal_cons]
    have hx : encode_base x < 5 := encode_base_lt5 x
    have : encode_base x * 5 ^ w.length + windowVal w <
        encode_base x * 5 ^ w.length + 5 ^ w.length := by omega
    calc encode_base x * 5 ^ w.length + windowVal w
        < (encode_base x + 1) * 5 ^ w.length := by rw [Nat.add_mul, Nat.one_mul]; omega
      _ ≤ 5 * 5 ^ w.length := Nat.mul_le_mul_right _ (by omega)
      _ = 5 ^ (x :: w).length := by rw [List.length_cons, Nat.pow_succ]; ring

theorem countN_cons (x : Nat) (w : List Nat) :
    countN (x :: w) = countN w + (if encode_base x = 4 then 1 else 0) := by
  unfold countN
  rw [List.countP_cons]
  simp

theorem countN_concat (w : List Nat) (b : Nat) :
    countN (w ++ [b]) = countN w + (if encode_base b = 4 then 1 else 0) := by
  unfold countN
  rw [List.countP_append]
  simp [List.countP_cons]

theorem wadd_small {a b : Nat} (h : a + b < M64) : wadd a b = a + b := by
  unfold wadd; exact Nat.mod_eq_of_lt h

theorem wmul_small {a b : Nat} (h : a * b < M64) : wmul a b = a * b := by
  unfold wmul; exact Nat.mod_eq_of_lt h

theorem wsub_small {a b : Nat} (hba : b ≤ a) (ha : a < M64) : wsub a b = a - b := by
  unfold wsub
  have hb : b < M64 := Nat.lt_of_le_of_lt hba ha
  rw [Nat.mod_eq_of_lt hb]
  have h1 : a + (M64 - b) = M64 + (a - b) := by omega
  rw [h1, Nat.add_mod_left]
  exact Nat.mod_eq_of_lt (by omega)

theorem init_scan_go (w : List Nat) (c n : Nat)
    (h : c * 5 ^ w.length + windowVal w < M64) :
    w.foldl
      (fun acc b =>
        let v := encode_base b
        (wadd (wmul acc.1 5) v, acc.2 + if v = 4 then 1 else 0))
      (c, n) = (c * 5 ^ w.length + windowVal w, n + countN w) := by
  induction w generalizing c n with
  | nil => simp [windowVal, countN]
  | cons x w ih =>
    have hwx : windowVal (x :: w) = encode_base x * 5 ^ w.length + windowVal w :=
      windowVal_cons x w
    have hpow : 1 ≤ 5 ^ w.length := Nat.one_le_pow _ _ (by omega)
    have hkey : (c * 5 + encode_base x) * 5 ^ w.length + windowVal w < M64 := by
      have : c * 5 ^ (x :: w).length + windowVal (x :: w)
          = (c * 5 + encode_base x) * 5 ^ w.length + windowVal w := by
        rw [hwx, List.length_cons, Nat.pow_succ]; ring
      omega
    have hc5 : c * 5 + encode_base x < M64 := by nlinarith
    simp only [List.foldl_cons]
    rw [wmul_small (by omega), wadd_small hc5, ih _ _ hkey]
    have h1 : (c * 5 + encode_base x) * 5 ^ w.length + windowVal w
        = c * 5 ^ (x :: w).length + windowVal (x :: w) := by
      rw [hwx, List.length_cons, Nat.pow_succ]; ring
    have h2 : (n + if encode_base x = 4 then 1 else 0) + countN w = n + countN (x :: w) := by
      rw [countN_cons]; omega
    rw [h1, h2]

theorem init_scan_spec (w : List Nat) (h : windowVal w < M64) :
    init_scan w = (windowVal w, countN w) := by
  unfold init_scan
  rw [init_scan_go w 0 0 (by simpa using h)]
  simp

theorem slide_ins_nil (s_n hp c n : Nat) (outs : List Nat) :
    slide s_n hp outs [] c n = [] := by
  cases outs <;> rfl

theorem slide_length (s_n hp : Nat) (outs ins : List Nat) (c n : Nat) :
    (slide s_n hp outs ins c n).length = min outs.length ins.length := by
  induction outs generalizing ins c n with
  | nil => cases ins <;> simp [slide]
  | cons o outs ih =>
    cases ins with
    | nil => simp [slide]
    | cons b ins => simp [slide, ih]; omega


theorem slide_spec (k : Nat) (hk : 1 ≤ k) (hM : 5 ^ k ≤ M64) (s_n : Nat) :
    ∀ outs : List Nat, k ≤ outs.length →
      slide s_n (5 ^ (k - 1)) outs (outs.drop k)
          (windowVal (outs.take k)) (countN (outs.take k)) =
      (List.range (outs.length - k)).map
        (fun j => emit s_n ((outs.drop (j + 1)).take k)) := by
  intro outs
  induction outs with
  | nil => intro h; simp at h; omega
  | cons o outs ih =>
    intro hlen
    by_cases hko : k ≤ outs.length
    case neg =>
      have hge : (o :: outs).length ≤ k := by simp; omega
      rw [List.drop_eq_nil_of_le hge, slide_ins_nil]
      have h0 : (o :: outs).length - k = 0 := by omega
      rw [h0]
      simp
    case pos =>
      have hk1 : k - 1 < outs.length := by omega
      have hdropo : (o :: outs).drop k = outs.drop (k - 1) := by
        conv_lhs => rw [show k = (k - 1) + 1 by omega]
        rw [List.drop_succ_cons]
      have hdrop2 : outs.drop (k - 1) = outs[k - 1] :: outs.drop k := by
        rw [List.drop_eq_getElem_cons hk1, show k - 1 + 1 = k by omega]
      have htlen : (outs.take (k - 1)).length = k - 1 := by
        rw [List.length_take]; omega
      have htake_cons : (o :: outs).take k = o :: outs.take (k - 1) := by
        conv_lhs => rw [show k = (k - 1) + 1 by omega]
        rw [List.take_succ_cons]
      have htake_outs : outs.take k = outs.take (k - 1) ++ [outs[k - 1]] := by
        conv_lhs => rw [show k = (k - 1) + 1 by omega]
        rw [List.take_succ, List.getElem?_eq_getElem hk1]
        simp
      have hpow : 5 ^ (k - 1) * 5 = 5 ^ k := by
        conv_rhs => rw [show k = (k - 1) + 1 by omega]
        rw [Nat.pow_succ]
      have hvo : windowVal (o :: outs.take (k - 1))
          = encode_base o * 5 ^ (k - 1) + windowVal (outs.take (k - 1)) := by
        rw [windowVal_cons, htlen]
      have hvt : windowVal (outs.take (k - 1)) < 5 ^ (k - 1) := by
        have h1 := windowVal_lt (outs.take (k - 1))
        rwa [htlen] at h1
      have hvot : windowVal (o :: outs.take (k - 1)) < 5 ^ k := by
        have h1 := windowVal_lt (o :: outs.take (k - 1))
        have h2 : (o :: outs.take (k - 1)).length = k := by simp [htlen]; omega
        rwa [h2] at h1
      have hvotM : windowVal (o :: outs.take (k - 1)) < M64 := Nat.lt_of_lt_of_le hvot hM
      have heo : encode_base o * 5 ^ (k - 1) ≤ windowVal (o :: outs.take (k - 1)) := by
        omega
      have hwtb : windowVal (outs.take (k - 1) ++ [outs[k - 1]])
          = windowVal (outs.take (k - 1)) * 5 + encode_base outs[k - 1] :=
        windowVal_concat _ _
      have htbk : (outs.take (k - 1) ++ [outs[k - 1]]).length = k := by
        simp [htlen]; omega
      have hwtbk : windowVal (outs.take (k - 1) ++ [outs[k - 1]]) < 5 ^ k := by
        have h1 := windowVal_lt (outs.take (k - 1) ++ [outs[k - 1]])
        rwa [htbk] at h1
      have hcode1 :
          wadd (wmul (wsub (windowVal (o :: outs.take (k - 1)))
                (wmul (encode_base o) (5 ^ (k - 1)))) 5)
              (encode_base outs[k - 1])
          = windowVal (outs.take (k - 1) ++ [outs[k - 1]]) := by
        rw [wmul_small (Nat.lt_of_le_of_lt heo hvotM), wsub_small heo hvotM]
        have hsub : windowVal (o :: outs.take (k - 1)) - encode_base o * 5 ^ (k - 1)
            = windowVal (outs.take (k - 1)) := by omega
        rw [hsub]
        have h5 : windowVal (outs.take (k - 1)) * 5 < M64 := by
          have h6 : windowVal (outs.take (k - 1)) * 5 < 5 ^ (k - 1) * 5 :=
            Nat.mul_lt_mul_of_lt_of_le hvt (Nat.le_refl 5) (by omega)
          omega
        rw [wmul_small h5]
        rw [wadd_small (by omega)]
        omega
      have hn2 : countN (o :: outs.take (k - 1)) - (if encode_base o = 4 then 1 else 0)
            + (if encode_base outs[k - 1] = 4 then 1 else 0)
          = countN (outs.take (k - 1) ++ [outs[k - 1]]) := by
        rw [countN_cons, countN_concat]
        omega
      rw [htake_cons, hdropo, hdrop2, slide, hcode1, hn2, ← htake_outs, ih hko]
      have hlen1 : (o :: outs).length - k = (outs.length - k) + 1 := by
        simp; omega
      rw [hlen1, List.range_succ_eq_map, List.map_cons, List.map_map]
      simp [emit]

theorem pow5_le_M64 {k : Nat} (h : k ≤ 27) : 5 ^ k ≤ M64 := by
  calc 5 ^ k ≤ 5 ^ 27 := Nat.pow_le_pow_right (by omega) h
    _ ≤ M64 := by norm_num [M64]

theorem build_codes_length (seq : List Nat) (k s_none s_n : Nat) (hk : 1 ≤ k) :
    (build_codes seq k s_none s_n).length = seq.length := by
  unfold build_codes
  split
  · simp
  · rename_i h
    simp [slide_length, List.length_replicate]
    omega

theorem build_codes_spec (seq : List Nat) (k s_none s_n : Nat)
    (hk : 1 ≤ k) (hkl : k ≤ seq.length) (hM : 5 ^ k ≤ M64) :
    build_codes seq k s_none s_n =
      (List.range (seq.length - k + 1)).map (fun p => emit s_n ((seq.drop p).take k))
        ++ List.replicate (k - 1) s_none := by
  unfold build_codes
  rw [if_neg (by omega)]
  have hvw : windowVal (seq.take k) < M64 := by
    have h1 := windowVal_lt (seq.take k)
    have h2 : (seq.take k).length = k := by rw [List.length_take]; omega
    rw [h2] at h1
    exact Nat.lt_of_lt_of_le h1 hM
  rw [init_scan_spec _ hvw]
  rw [slide_spec k hk hM s_n seq hkl]
  rw [List.range_succ_eq_map, List.map_cons, List.map_map]
  simp [emit]

theorem countN_pos_iff (w : List Nat) :
    0 < countN w ↔ ∃ b ∈ w, ¬ isACGT b := by
  unfold countN isACGT
  rw [List.countP_pos_iff]
  simp

theorem countN_eq_zero_iff (w : List Nat) :
    countN w = 0 ↔ ∀ b ∈ w, isACGT b := by
  unfold countN isACGT
  rw [List.countP_eq_zero]
  simp

theorem decode_digits_windowVal (w : List Nat) :
    decode_digits (windowVal w) w.length
      = w.map (fun b => BASES.getD (encode_base b) 'N') := by
  induction w using List.reverseRecOn with
  | nil => simp [decode_digits, windowVal]
  | append_singleton l b ih =>
    rw [windowVal_concat]
    have hlen : (l ++ [b]).length = l.length + 1 := by simp
    rw [hlen, decode_digits]
    have h5 := encode_base_lt5 b
    have hd : (windowVal l * 5 + encode_base b) / 5 = windowVal l := by omega
    have hm : (windowVal l * 5 + encode_base b) % 5 = encode_base b := by omega
    rw [hd, hm, ih, List.map_append]
    simp

theorem BASES_getD_isACGT {b : Nat} (h : isACGT b) :
    BASES.getD (encode_base b) 'N' = upperBase b := by
  unfold isACGT at h
  unfold BASES upperBase encode_base at *
  split_ifs at * <;> simp_all

theorem choose_width_spec (k : Nat) (w : Width) (s_none s_n : Nat)
    (h : choose_width k = some (w, s_none, s_n)) :
    s_none = w.maxv ∧ s_n = w.maxv - 1 ∧ 5 ^ k - 1 ≤ w.maxv - 2 ∧
      ∀ w' : Width, 5 ^ k - 1 ≤ w'.maxv - 2 → w.maxv ≤ w'.maxv := by
  unfold choose_width at h
  simp only [Width.maxv] at h ⊢
  split_ifs at h with h1 h2 h3 h4 <;>
    simp only [Option.some.injEq, Prod.mk.injEq] at h
  all_goals obtain ⟨hw, hsn, hsnn⟩ := h
  all_goals subst hw
  all_goals subst hsn
  all_goals subst hsnn
  all_goals refine ⟨rfl, rfl, by simp [Width.maxv] at *; omega, ?_⟩
  all_goals intro w' hw'
  all_goals cases w' <;> simp [Width.maxv] at hw' ⊢ <;> omega

theorem choose_width_lt28 : ∀ k, k < 28 → (choose_width k).isSome := by decide

theorem two_le_maxv (w : Width) : 2 ≤ w.maxv := by
  cases w <;> simp [Width.maxv]

theorem build_kmer_specs_aux_isSome :
    ∀ (ks : List Nat) (seen : List Nat) (acc : List (Nat × KmerSpec)),
      ks.Nodup → (∀ k ∈ ks, 1 ≤ k ∧ k ≤ 27) → (∀ k ∈ ks, k ∉ seen) →
      (build_kmer_specs_aux seen acc ks).isSome := by
  intro ks
  induction ks with
  | nil => intro seen acc _ _ _; simp [build_kmer_specs_aux]
  | cons k rest ih =>
    intro seen acc hnd hall hseen
    have hk := hall k (by simp)
    have hcw : (choose_width k).isSome := choose_width_lt28 k (by omega)
    unfold build_kmer_specs_aux
    rw [if_neg (by omega), if_neg (by omega), if_neg (by simp [hseen k (by simp)])]
    cases hc : choose_width k with
    | none => rw [hc] at hcw; simp at hcw
    | some trip =>
      obtain ⟨w, s_none, s_n⟩ := trip
      apply ih
      · exact hnd.of_cons
      · intro k' hk'; exact hall k' (by simp [hk'])
      · intro k' hk'
        simp only [List.mem_cons]
        push_neg
        refine ⟨?_, hseen k' (by simp [hk'])⟩
        intro hkk
        subst hkk
        exact (List.nodup_cons.mp hnd).1 hk'

/-! ## Claim theorems about the k-mer codec -/

/-- Claim C7: `choose_width k` selects the narrowest width among 8/16/32/64
bits satisfying `5^k - 1 ≤ max_value(width) - 2`, reserving the top two values
of that width as the two sentinels; concretely `choose_width 3` selects 8-bit,
`choose_width 10` selects 32-bit and `choose_width 26` selects 64-bit. -/
theorem claim_C7_choose_width_narrowest (k : Nat) (w : Width) (s_none s_n : Nat)
    (h : choose_width k = some (w, s_none, s_n)) :
    (5 ^ k - 1 ≤ w.maxv - 2 ∧
      (∀ w' : Width, 5 ^ k - 1 ≤ w'.maxv - 2 → w.maxv ≤ w'.maxv) ∧
      s_none = w.maxv ∧ s_n = w.maxv - 1) ∧
    choose_width 3 = some (Width.U8, 2 ^ 8 - 1, 2 ^ 8 - 2) ∧
    choose_width 10 = some (Width.U32, 2 ^ 32 - 1, 2 ^ 32 - 2) ∧
    choose_width 26 = some (Width.U64, 2 ^ 64 - 1, 2 ^ 64 - 2) := by
  obtain ⟨h1, h2, h3, h4⟩ := choose_width_spec k w s_none s_n h
  exact ⟨⟨h3, h4, h1, h2⟩, by decide, by decide, by decide⟩

/-- Witness for C7 at `k = 3`. -/
theorem claim_C7_witness :
    choose_width 3 = some (Width.U8, 255, 254) ∧
    ((5 ^ 3 - 1 ≤ Width.U8.maxv - 2 ∧
      (∀ w' : Width, 5 ^ 3 - 1 ≤ w'.maxv - 2 → Width.U8.maxv ≤ w'.maxv) ∧
      (255 : Nat) = Width.U8.maxv ∧ (254 : Nat) = Width.U8.maxv - 1) ∧
     choose_width 3 = some (Width.U8, 2 ^ 8 - 1, 2 ^ 8 - 2) ∧
     choose_width 10 = some (Width.U32, 2 ^ 32 - 1, 2 ^ 32 - 2) ∧
     choose_width 26 = some (Width.U64, 2 ^ 64 - 1, 2 ^ 64 - 2)) :=
  ⟨by decide, claim_C7_choose_width_narrowest 3 Width.U8 255 254 (by decide)⟩

/-- Claim C9: for every k in 1..=27 `choose_width` succeeds (its error branch
is unreachable under the `k ≤ 27` precondition enforced by `build_kmer_specs`),
so building specs for any duplicate-free list of such k always succeeds. -/
theorem claim_C9_no_width_failure (ks : List Nat) (hnd : ks.Nodup)
    (hall : ∀ k ∈ ks, 1 ≤ k ∧ k ≤ 27) :
    (∀ k, 1 ≤ k → k ≤ 27 → (choose_width k).isSome) ∧
    (build_kmer_specs ks).isSome := by
  constructor
  · intro k _ hk27
    exact choose_width_lt28 k (by omega)
  · exact build_kmer_specs_aux_isSome ks [] [] hnd hall (by simp)

/-- Witness for C9 at `ks = [3, 10, 27]`. -/
theorem claim_C9_witness :
    ([3, 10, 27] : List Nat).Nodup ∧
    ((∀ k, 1 ≤ k → k ≤ 27 → (choose_width k).isSome) ∧
     (build_kmer_specs [3, 10, 27]).isSome) :=
  ⟨by decide, claim_C9_no_width_failure [3, 10, 27] (by decide) (by decide)⟩
theorem getD_append_right_of_length {α : Type} (A B : List α) (d : α) (m p : Nat)
    (hA : A.length = m) (hp : m ≤ p) :
    (A ++ B).getD p d = B.getD (p - m) d := by
  subst hA
  rw [List.getD_eq_getElem?_getD, List.getElem?_append_right hp,
    ← List.getD_eq_getElem?_getD]

theorem getD_append_left_of_length {α : Type} (A B : List α) (d : α) (p : Nat)
    (hp : p < A.length) :
    (A ++ B).getD p d = A.getD p d := by
  rw [List.getD_eq_getElem?_getD, List.getElem?_append_left hp,
    ← List.getD_eq_getElem?_getD]

/-- Claim C2 (amended): for every k ≥ 1 the output length equals the input
length and all entries are `sentinel_none` when k exceeds the sequence length;
when k fits, the trailing k-1 entries are `sentinel_none`, and — for k ≤ 27,
the range `build_kmer_specs` admits — every earlier entry is `sentinel_n` when
its window contains a non-ACGT byte and the exact radix-5 window code
otherwise (for k ≥ 28 the stored value is only the radix-5 value reduced
mod 2^64). -/
theorem claim_C2_build_codes_shape (k : Nat) (seq : List Nat) (s_none s_n : Nat)
    (hk : 1 ≤ k) :
    (build_codes seq k s_none s_n).length = seq.length ∧
    (seq.length < k → build_codes seq k s_none s_n = List.replicate seq.length s_none) ∧
    (k ≤ seq.length →
      (∀ p, seq.length - k < p → p < seq.length →
        (build_codes seq k s_none s_n).getD p 0 = s_none) ∧
      (k ≤ 27 → ∀ p, p ≤ seq.length - k →
        (build_codes seq k s_none s_n).getD p 0 =
          if ∃ b ∈ (seq.drop p).take k, ¬ isACGT b then s_n
          else windowVal ((seq.drop p).take k))) := by
  refine ⟨build_codes_length seq k s_none s_n hk, ?_, ?_⟩
  · intro hlt
    unfold build_codes
    rw [if_pos hlt]
  · intro hkl
    constructor
    · intro p hp1 hp2
      unfold build_codes
      rw [if_neg (by omega)]
      have hlen1 : ((if 0 < (init_scan (seq.take k)).2 then s_n
            else (init_scan (seq.take k)).1) ::
          slide s_n (5 ^ (k - 1)) seq (seq.drop k)
            (init_scan (seq.take k)).1 (init_scan (seq.take k)).2).length
          = seq.length - k + 1 := by
        simp [slide_length]
      rw [getD_append_right_of_length _ _ _ _ _ hlen1 (by omega)]
      rw [List.getD_eq_getElem?_getD, List.getElem?_replicate_of_lt (by omega)]
      rfl
    · intro hk27 p hp
      rw [build_codes_spec seq k s_none s_n hk hkl (pow5_le_M64 hk27)]
      have hplt : p < seq.length - k + 1 := by omega
      rw [getD_append_left_of_length _ _ _ _ (by simp [hplt])]
      rw [List.getD_eq_getElem?_getD, List.getElem?_map, List.getElem?_range hplt]
      show emit s_n ((seq.drop p).take k) = _
      rw [emit]
      by_cases hcn : 0 < countN ((seq.drop p).take k)
      · rw [if_pos hcn, if_pos ((countN_pos_iff _).mp hcn)]
      · rw [if_neg hcn]
        rw [if_neg ?hc]
        case hc =>
          intro hex
          exact hcn ((countN_pos_iff _).mpr hex)

/-- Witness for C2 at `k = 2`, sequence "ACG". -/
theorem claim_C2_witness :
    (1 : Nat) ≤ 2 ∧
    ((build_codes [65, 67, 71] 2 255 254).length = ([65, 67, 71] : List Nat).length ∧
     (([65, 67, 71] : List Nat).length < 2 →
        build_codes [65, 67, 71] 2 255 254
          = List.replicate ([65, 67, 71] : List Nat).length 255) ∧
     (2 ≤ ([65, 67, 71] : List Nat).length →
       (∀ p, ([65, 67, 71] : List Nat).length - 2 < p →
          p < ([65, 67, 71] : List Nat).length →
          (build_codes [65, 67, 71] 2 255 254).getD p 0 = 255) ∧
       (2 ≤ 27 → ∀ p, p ≤ ([65, 67, 71] : List Nat).length - 2 →
          (build_codes [65, 67, 71] 2 255 254).getD p 0 =
            if ∃ b ∈ (([65, 67, 71] : List Nat).drop p).take 2, ¬ isACGT b then 254
            else windowVal ((([65, 67, 71] : List Nat).drop p).take 2)))) :=
  ⟨by decide, claim_C2_build_codes_shape 2 [65, 67, 71] 255 254 (by decide)⟩

/-- Counterexample to C2 as stated: at `k = 28` (never admitted by
`build_kmer_specs`, but quantified over by the claim) the rolling `u64`
arithmetic wraps, so the entry for an all-`T` window is not the radix-5 code
of the window even though the window contains only A/C/G/T bytes. -/
theorem claim_C2_counterexample :
    1 ≤ 28 ∧ 28 ≤ (List.replicate 28 84 : List Nat).length ∧
    (¬ ∃ b ∈ ((List.replicate 28 84 : List Nat).drop 0).take 28, ¬ isACGT b) ∧
    (build_codes (List.replicate 28 84) 28 (2 ^ 64 - 1) (2 ^ 64 - 2)).getD 0 0
      ≠ windowVal (((List.replicate 28 84 : List Nat).drop 0).take 28) := by
  refine ⟨by decide, by decide, by decide, by decide⟩

/-- Claim C1: for every k in 1..=27 and position whose k-window lies fully in
the sequence and contains only A/C/G/T bytes (either case), decoding the code
that the rolling encoder produced at that position yields exactly the
uppercase form of the original window. -/
theorem claim_C1_roundtrip (k p : Nat) (seq : List Nat) (w : Width)
    (s_none s_n : Nat) (hk : 1 ≤ k) (hk27 : k ≤ 27) (hpk : p + k ≤ seq.length)
    (hcw : choose_width k = some (w, s_none, s_n))
    (hacgt : ∀ b ∈ (seq.drop p).take k, isACGT b) :
    decode_kmer ((build_codes seq k s_none s_n).getD p 0) k s_none s_n
      = ((seq.drop p).take k).map upperBase := by
  obtain ⟨hsn, hsnn, hfit, _⟩ := choose_width_spec k w s_none s_n hcw
  have hmax := two_le_maxv w
  have hkl : k ≤ seq.length := by omega
  have hwin_len : ((seq.drop p).take k).length = k := by
    simp [List.length_take, List.length_drop]
    omega
  have hcn : countN ((seq.drop p).take k) = 0 := (countN_eq_zero_iff _).mpr hacgt
  have hwv_lt : windowVal ((seq.drop p).take k) < 5 ^ k := by
    have h1 := windowVal_lt ((seq.drop p).take k)
    rwa [hwin_len] at h1
  have hentry : (build_codes seq k s_none s_n).getD p 0
      = windowVal ((seq.drop p).take k) := by
    rw [build_codes_spec seq k s_none s_n hk hkl (pow5_le_M64 hk27)]
    have hplt : p < seq.length - k + 1 := by omega
    rw [getD_append_left_of_length _ _ _ _ (by simp [hplt])]
    rw [List.getD_eq_getElem?_getD, List.getElem?_map, List.getElem?_range hplt]
    show emit s_n ((seq.drop p).take k) = _
    rw [emit, if_neg (by omega)]
  rw [hentry]
  unfold decode_kmer
  rw [if_neg (by push_neg; constructor <;> omega)]
  have hdec := decode_digits_windowVal ((seq.drop p).take k)
  rw [hwin_len] at hdec
  rw [hdec]
  apply List.map_congr_left
  intro b hb
  exact BASES_getD_isACGT (hacgt b hb)

/-- Witness for C1: sequence "acgT", k = 2, position 1 decodes back to "CG". -/
theorem claim_C1_witness :
    choose_width 2 = some (Width.U8, 255, 254) ∧
    (∀ b ∈ (([97, 99, 103, 84] : List Nat).drop 1).take 2, isACGT b) ∧
    decode_kmer ((build_codes [97, 99, 103, 84] 2 255 254).getD 1 0) 2 255 254
      = ((([97, 99, 103, 84] : List Nat).drop 1).take 2).map upperBase :=
  ⟨by decide, by decide,
    claim_C1_roundtrip 2 1 [97, 99, 103, 84] Width.U8 255 254 (by decide)
      (by decide) (by decide) (by decide) (by decide)⟩

/-! ## IntervalAlgebra (`src/reference/blacklist.rs`) -/

/-- The coalescing loop of `merge_intervals`: `cur` is the block being grown;
an interval starting at or before `cur`'s end extends it (`cur.1 = cur.1.max(e)`
in Rust's 0-based tuple indexing is the end field), otherwise `cur` is pushed
and the interval starts a new block. -/
def mergeAux (cur : Nat × Nat) : List (Nat × Nat) → List (Nat × Nat)
  | [] => [cur]
  | (s, e) :: rest =>
    if s ≤ cur.2 then mergeAux (cur.1, max cur.2 e) rest
    else cur :: mergeAux (s, e) rest

/-- `pub fn merge_intervals(ivs: Vec<(u64, u64)>) -> Vec<(u64, u64)>`. -/
def merge_intervals : List (Nat × Nat) → List (Nat × Nat)
  | [] => []
  | iv :: rest => mergeAux iv rest

/-- Position `p` is covered by some interval of `l` (half-open `[start, end)`). -/
def covers (l : List (Nat × Nat)) (p : Nat) : Prop :=
  ∃ iv ∈ l, iv.1 ≤ p ∧ p < iv.2

instance (l : List (Nat × Nat)) (p : Nat) : Decidable (covers l p) := by
  unfold covers; infer_instance

theorem covers_nil (p : Nat) : ¬ covers [] p := by simp [covers]

theorem covers_cons {iv : Nat × Nat} {l : List (Nat × Nat)} {p : Nat} :
    covers (iv :: l) p ↔ (iv.1 ≤ p ∧ p < iv.2) ∨ covers l p := by
  simp [covers]

theorem mergeAux_covers :
    ∀ (l : List (Nat × Nat)) (cur : Nat × Nat) (p : Nat),
      List.Pairwise (fun a b : Nat × Nat => a.1 ≤ b.1) l →
      (∀ x ∈ l, cur.1 ≤ x.1) →
      (covers (mergeAux cur l) p ↔ (cur.1 ≤ p ∧ p < cur.2) ∨ covers l p) := by
  intro l
  induction l with
  | nil =>
    intro cur p _ _
    simp [mergeAux, covers]
  | cons iv rest ih =>
    intro cur p hsort hcur
    obtain ⟨s, e⟩ := iv
    have hrest_sort := hsort.of_cons
    have hrest_ge : ∀ x ∈ rest, s ≤ x.1 := by
      intro x hx
      exact (List.pairwise_cons.mp hsort).1 x hx
    have hcs : cur.1 ≤ s := hcur (s, e) (by simp)
    rw [mergeAux]
    by_cases hse : s ≤ cur.2
    · rw [if_pos hse]
      rw [ih (cur.1, max cur.2 e) p hrest_sort
        (by intro x hx; exact hcur x (by simp [hx]))]
      rw [covers_cons]
      constructor
      · rintro (⟨h1, h2⟩ | h)
        · rcases Nat.lt_or_ge p cur.2 with hp | hp
          · exact Or.inl ⟨h1, hp⟩
          · refine Or.inr (Or.inl ⟨by omega, by simp at h2; omega⟩)
        · exact Or.inr (Or.inr h)
      · rintro (⟨h1, h2⟩ | ⟨h1, h2⟩ | h)
        · exact Or.inl ⟨h1, by simp; omega⟩
        · exact Or.inl ⟨by omega, by simp; omega⟩
        · exact Or.inr h
    · rw [if_neg hse]
      rw [covers_cons]
      rw [ih (s, e) p hrest_sort hrest_ge]
      rw [covers_cons]
  
theorem mergeAux_strong :
    ∀ (l : List (Nat × Nat)) (cur : Nat × Nat),
      List.Pairwise (fun a b : Nat × Nat => a.1 ≤ b.1) l →
      (∀ x ∈ l, cur.1 ≤ x.1) → (∀ x ∈ l, x.1 ≤ x.2) → cur.1 ≤ cur.2 →
      (∀ iv ∈ mergeAux cur l, iv.1 ≤ iv.2) ∧
      List.Pairwise (fun a b : Nat × Nat => a.2 < b.1) (mergeAux cur l) ∧
      (∀ iv ∈ mergeAux cur l, cur.1 ≤ iv.1) := by
  intro l
  induction l with
  | nil =>
    intro cur _ _ _ hcur
    simp [mergeAux, hcur]
  | cons iv rest ih =>
    intro cur hsort hge hwf hcur
    obtain ⟨s, e⟩ := iv
    have hrest_sort := hsort.of_cons
    have hrest_ge : ∀ x ∈ rest, s ≤ x.1 := by
      intro x hx
      exact (List.pairwise_cons.mp hsort).1 x hx
    have hrest_wf : ∀ x ∈ rest, x.1 ≤ x.2 := by
      intro x hx; exact hwf x (by simp [hx])
    have hcs : cur.1 ≤ s := hge (s, e) (by simp)
    have hsei : s ≤ e := hwf (s, e) (by simp)
    rw [mergeAux]
    by_cases hse : s ≤ cur.2
    · rw [if_pos hse]
      have h := ih (cur.1, max cur.2 e) hrest_sort
        (by intro x hx; exact hge x (by simp [hx])) hrest_wf
        (by simp; omega)
      exact h
    · rw [if_neg hse]
      have h := ih (s, e) hrest_sort hrest_ge hrest_wf hsei
      obtain ⟨hwf', hpw', hlow'⟩ := h
      refine ⟨?_, ?_, ?_⟩
      · intro x hx
        rcases List.mem_cons.mp hx with h1 | h1
        · subst h1; exact hcur
        · exact hwf' x h1
      · rw [List.pairwise_cons]
        refine ⟨?_, hpw'⟩
        intro x hx
        have := hlow' x hx
        simp at this ⊢
        omega
      · intro x hx
        rcases List.mem_cons.mp hx with h1 | h1
        · subst h1; exact Nat.le_refl _
        · have := hlow' x h1; simp at this; omega

/-- Claim C4: merging a start-sorted interval list yields a sorted, disjoint,
non-touching list covering exactly the same positions; concrete merges match
the spec's three examples. -/
theorem claim_C4_merge_intervals (l : List (Nat × Nat))
    (hsort : List.Pairwise (fun a b : Nat × Nat => a.1 ≤ b.1) l)
    (hwf : ∀ iv ∈ l, iv.1 ≤ iv.2) :
    (merge_intervals [(10, 25), (20, 40), (50, 55)] = [(10, 40), (50, 55)] ∧
     merge_intervals [(0, 10), (10, 20), (20, 30)] = [(0, 30)] ∧
     merge_intervals ([] : List (Nat × Nat)) = []) ∧
    List.Pairwise (fun a b : Nat × Nat => a.2 < b.1) (merge_intervals l) ∧
    List.Pairwise (fun a b : Nat × Nat => a.1 < b.1) (merge_intervals l) ∧
    (∀ iv ∈ merge_intervals l, iv.1 ≤ iv.2) ∧
    (∀ p, covers (merge_intervals l) p ↔ covers l p) := by
  refine ⟨⟨by decide, by decide, by decide⟩, ?_⟩
  cases l with
  | nil =>
    simp [merge_intervals, covers]
  | cons iv rest =>
    have hrest_sort := hsort.of_cons
    have hrest_ge : ∀ x ∈ rest, iv.1 ≤ x.1 := by
      intro x hx
      exact (List.pairwise_cons.mp hsort).1 x hx
    have hrest_wf : ∀ x ∈ rest, x.1 ≤ x.2 := by
      intro x hx; exact hwf x (by simp [hx])
    have hiv : iv.1 ≤ iv.2 := hwf iv (by simp)
    obtain ⟨hwf', hpw', _⟩ := mergeAux_strong rest iv hrest_sort hrest_ge hrest_wf hiv
    refine ⟨hpw', ?_, hwf', ?_⟩
    · exact hpw'.imp_of_mem (by
        intro a b ha hb hab
        have := hwf' a ha
        omega)
    · intro p
      rw [show merge_intervals (iv :: rest) = mergeAux iv rest from rfl]
      rw [mergeAux_covers rest iv p hrest_sort hrest_ge, covers_cons]

/-- Witness for C4 at the spec's first example list. -/
theorem claim_C4_witness :
    List.Pairwise (fun a b : Nat × Nat => a.1 ≤ b.1) [(10, 25), (20, 40), (50, 55)] ∧
    ((merge_intervals [(10, 25), (20, 40), (50, 55)] = [(10, 40), (50, 55)] ∧
      merge_intervals [(0, 10), (10, 20), (20, 30)] = [(0, 30)] ∧
      merge_intervals ([] : List (Nat × Nat)) = []) ∧
     List.Pairwise (fun a b : Nat × Nat => a.2 < b.1)
        (merge_intervals [(10, 25), (20, 40), (50, 55)]) ∧
     List.Pairwise (fun a b : Nat × Nat => a.1 < b.1)
        (merge_intervals [(10, 25), (20, 40), (50, 55)]) ∧
     (∀ iv ∈ merge_intervals [(10, 25), (20, 40), (50, 55)], iv.1 ≤ iv.2) ∧
     (∀ p, covers (merge_intervals [(10, 25), (20, 40), (50, 55)]) p ↔
        covers [(10, 25), (20, 40), (50, 55)] p)) :=
  ⟨by decide,
    claim_C4_merge_intervals [(10, 25), (20, 40), (50, 55)] (by decide) (by decide)⟩

/-- `pub const BLACKLIST_BYTE: u8 = b'X';` -/
def BLACKLIST_BYTE : Nat := 88

/-- `seq[s..e].fill(BLACKLIST_BYTE)` modelled positionally; `i` is the index
of the first byte of the remaining list. -/
def fillRange (s e : Nat) : List Nat → Nat → List Nat
  | [], _ => []
  | b :: bs, i =>
    (if s ≤ i ∧ i < e then BLACKLIST_BYTE else b) :: fillRange s e bs (i + 1)

/-- `pub fn apply_blacklist_mask_to_seq(seq, intervals)`: fill each interval
(clipped to the sequence length) with the mask byte, `break`ing at the first
interval that starts at or past the end of the sequence. -/
def apply_blacklist_mask_to_seq (seq : List Nat) : List (Nat × Nat) → List Nat
  | [] => seq
  | (start, end_) :: rest =>
    if seq.length ≤ start then seq
    else apply_blacklist_mask_to_seq (fillRange start (min end_ seq.length) seq 0) rest

theorem fillRange_length (s e : Nat) :
    ∀ (l : List Nat) (i : Nat), (fillRange s e l i).length = l.length := by
  intro l
  induction l with
  | nil => intro i; rfl
  | cons b bs ih => intro i; simp [fillRange, ih]

theorem fillRange_getD (s e : Nat) :
    ∀ (l : List Nat) (i p : Nat), p < l.length →
      (fillRange s e l i).getD p 0
        = if s ≤ i + p ∧ i + p < e then BLACKLIST_BYTE else l.getD p 0 := by
  intro l
  induction l with
  | nil => intro i p h; simp at h
  | cons b bs ih =>
    intro i p hp
    cases p with
    | zero => simp [fillRange]
    | succ q =>
      have hq : q < bs.length := by simp at hp; omega
      show (fillRange s e bs (i + 1)).getD q 0 = _
      rw [ih (i + 1) q hq]
      have harith : i + 1 + q = i + (q + 1) := by omega
      rw [harith]
      rfl

/-- Claim C10: masking never changes the sequence length, leaves every byte
outside all listed intervals unchanged, and only ever overwrites bytes with
the reserved mask byte at positions inside some listed interval. -/
theorem claim_C10_mask_frame (seq : List Nat) (intervals : List (Nat × Nat)) :
    (apply_blacklist_mask_to_seq seq intervals).length = seq.length ∧
    (∀ p, p < seq.length →
      ((∀ iv ∈ intervals, ¬ (iv.1 ≤ p ∧ p < iv.2)) →
        (apply_blacklist_mask_to_seq seq intervals).getD p 0 = seq.getD p 0) ∧
      ((apply_blacklist_mask_to_seq seq intervals).getD p 0 = seq.getD p 0 ∨
        ((apply_blacklist_mask_to_seq seq intervals).getD p 0 = BLACKLIST_BYTE ∧
          ∃ iv ∈ intervals, iv.1 ≤ p ∧ p < iv.2))) := by
  induction intervals generalizing seq with
  | nil => simp [apply_blacklist_mask_to_seq]
  | cons iv rest ih =>
    obtain ⟨s, e⟩ := iv
    rw [show apply_blacklist_mask_to_seq seq ((s, e) :: rest)
        = if seq.length ≤ s then seq
          else apply_blacklist_mask_to_seq (fillRange s (min e seq.length) seq 0) rest
      from rfl]
    by_cases hbr : seq.length ≤ s
    · rw [if_pos hbr]
      refine ⟨rfl, ?_⟩
      intro p hp
      exact ⟨fun _ => rfl, Or.inl rfl⟩
    · rw [if_neg hbr]
      have hlen : (fillRange s (min e seq.length) seq 0).length = seq.length :=
        fillRange_length _ _ seq 0
      obtain ⟨ihlen, ihp⟩ := ih (fillRange s (min e seq.length) seq 0)
      refine ⟨by rw [ihlen, hlen], ?_⟩
      intro p hp
      have hfill := fillRange_getD s (min e seq.length) seq 0 p hp
      rw [Nat.zero_add] at hfill
      obtain ⟨ih1, ih2⟩ := ihp p (by omega)
      constructor
      · intro hnone
        have hniv : ¬ (s ≤ p ∧ p < e) := by
          have := hnone (s, e) (by simp)
          simpa using this
        rw [ih1 (by intro x hx; exact hnone x (by simp [hx]))]
        rw [hfill, if_neg (by simp; omega)]
      · rcases ih2 with h1 | ⟨h1, iv', hiv', hcov⟩
        · rw [h1, hfill]
          by_cases hin : s ≤ p ∧ p < min e seq.length
          · rw [if_pos hin]
            exact Or.inr ⟨rfl, (s, e), by simp, by simp at hin; omega⟩
          · rw [if_neg hin]
            exact Or.inl rfl
        · exact Or.inr ⟨h1, iv', by simp [hiv'], hcov⟩

/-- Witness for C10 (it has `p`-level hypotheses inside): masking "ACGTACGT"
over [(2,4),(6,8)] evaluated through the theorem. -/
theorem claim_C10_witness :
    (apply_blacklist_mask_to_seq [65, 67, 71, 84, 65, 67, 71, 84] [(2, 4), (6, 8)]).length
        = ([65, 67, 71, 84, 65, 67, 71, 84] : List Nat).length ∧
    (∀ p, p < ([65, 67, 71, 84, 65, 67, 71, 84] : List Nat).length →
      ((∀ iv ∈ ([(2, 4), (6, 8)] : List (Nat × Nat)), ¬ (iv.1 ≤ p ∧ p < iv.2)) →
        (apply_blacklist_mask_to_seq [65, 67, 71, 84, 65, 67, 71, 84]
            [(2, 4), (6, 8)]).getD p 0
          = ([65, 67, 71, 84, 65, 67, 71, 84] : List Nat).getD p 0) ∧
      ((apply_blacklist_mask_to_seq [65, 67, 71, 84, 65, 67, 71, 84]
            [(2, 4), (6, 8)]).getD p 0
          = ([65, 67, 71, 84, 65, 67, 71, 84] : List Nat).getD p 0 ∨
        ((apply_blacklist_mask_to_seq [65, 67, 71, 84, 65, 67, 71, 84]
            [(2, 4), (6, 8)]).getD p 0 = BLACKLIST_BYTE ∧
          ∃ iv ∈ ([(2, 4), (6, 8)] : List (Nat × Nat)), iv.1 ≤ p ∧ p < iv.2))) :=
  claim_C10_mask_frame [65, 67, 71, 84, 65, 67, 71, 84] [(2, 4), (6, 8)]

/-- The first `while` of `compute_blacklist_overlap`: how many leading
intervals (from the pointer) end at or before the query start. -/
def skipCount (start : Nat) : List (Nat × Nat) → Nat
  | [] => 0
  | iv :: rest => if iv.2 ≤ start then skipCount start rest + 1 else 0

/-- The second `while`: `covered += e.min(end).saturating_sub(s.max(start))`
over intervals until the first one starting at or past the query end. -/
def sumOverlap (start end_ : Nat) : List (Nat × Nat) → Nat
  | [] => 0
  | iv :: rest =>
    if iv.1 < end_ then (min iv.2 end_ - max iv.1 start) + sumOverlap start end_ rest
    else 0

/-- `pub fn compute_blacklist_overlap(intervals, start, end, ptr) -> f64`:
returns the covered/length fraction and the advanced pointer.  The Rust `f64`
quotient of the two exact integers is modelled as the exact rational. -/
def compute_blacklist_overlap (intervals : List (Nat × Nat)) (start end_ ptr : Nat) :
    ℚ × Nat :=
  ((sumOverlap start end_
      ((intervals.drop ptr).drop (skipCount start (intervals.drop ptr))) : ℚ)
    / ((end_ - start : Nat) : ℚ),
   ptr + skipCount start (intervals.drop ptr))

/-- Number of positions of `[start, end)` covered by the intervals
(specification side of the overlap fraction). -/
def coveredCount (l : List (Nat × Nat)) (start end_ : Nat) : Nat :=
  ((Finset.Ico start end_).filter (fun p => covers l p)).card

theorem sumOverlap_spec (start end_ : Nat) :
    ∀ m : List (Nat × Nat), List.Pairwise (fun a b : Nat × Nat => a.2 ≤ b.1) m →
      (∀ iv ∈ m, iv.1 ≤ iv.2) →
      sumOverlap start end_ m = coveredCount m start end_ := by
  intro m
  induction m with
  | nil =>
    intro _ _
    simp [sumOverlap, coveredCount, covers]
  | cons iv rest ih =>
    intro hsort hwf
    obtain ⟨s, e⟩ := iv
    have hrest_sort := hsort.of_cons
    have hrest_wf : ∀ x ∈ rest, x.1 ≤ x.2 := fun x hx => hwf x (by simp [hx])
    have hge : ∀ x ∈ rest, e ≤ x.1 := (List.pairwise_cons.mp hsort).1
    have hse : s ≤ e := hwf (s, e) (by simp)
    rw [sumOverlap]
    by_cases hlt : s < end_
    · rw [if_pos hlt, ih hrest_sort hrest_wf]
      unfold coveredCount
      have hsplit : (Finset.Ico start end_).filter (fun p => covers ((s, e) :: rest) p)
          = ((Finset.Ico start end_).filter (fun p => s ≤ p ∧ p < e))
            ∪ ((Finset.Ico start end_).filter (fun p => covers rest p)) := by
        ext p
        simp only [Finset.mem_filter, Finset.mem_union, covers_cons]
        tauto
      rw [hsplit, Finset.card_union_of_disjoint ?hdisj]
      case hdisj =>
        rw [Finset.disjoint_left]
        intro p hp hq
        rw [Finset.mem_filter] at hp hq
        obtain ⟨iv', hiv', hcov⟩ := hq.2
        have := hge iv' hiv'
        omega
      congr 1
      have hinter : (Finset.Ico start end_).filter (fun p => s ≤ p ∧ p < e)
          = Finset.Ico (max start s) (min end_ e) := by
        ext p
        simp only [Finset.mem_filter, Finset.mem_Ico]
        omega
      rw [hinter, Nat.card_Ico]
      omega
    · rw [if_neg hlt]
      unfold coveredCount
      have hempty : (Finset.Ico start end_).filter (fun p => covers ((s, e) :: rest) p)
          = ∅ := by
        rw [Finset.filter_eq_empty_iff]
        intro p hp
        rw [Finset.mem_Ico] at hp
        intro hcov
        rcases covers_cons.mp hcov with ⟨h1, h2⟩ | ⟨iv', hiv', h1, h2⟩
        · omega
        · have := hge iv' hiv'
          omega
      rw [hempty]
      rfl

theorem skipCount_take (start : Nat) :
    ∀ m : List (Nat × Nat), ∀ iv ∈ m.take (skipCount start m), iv.2 ≤ start := by
  intro m
  induction m with
  | nil => simp
  | cons x rest ih =>
    rw [skipCount]
    by_cases hx : x.2 ≤ start
    · rw [if_pos hx, List.take_succ_cons]
      intro iv hiv
      rcases List.mem_cons.mp hiv with h | h
      · subst h; exact hx
      · exact ih iv h
    · rw [if_neg hx]
      simp

theorem covers_drop_iff {l : List (Nat × Nat)} {n : Nat} {start p : Nat}
    (hpref : ∀ iv ∈ l.take n, iv.2 ≤ start) (hp : start ≤ p) :
    covers l p ↔ covers (l.drop n) p := by
  constructor
  · rintro ⟨iv, hiv, h1, h2⟩
    rw [← List.take_append_drop n l] at hiv
    rcases List.mem_append.mp hiv with h | h
    · have := hpref iv h
      omega
    · exact ⟨iv, h, h1, h2⟩
  · rintro ⟨iv, hiv, h⟩
    exact ⟨iv, List.mem_of_mem_drop hiv, h⟩

/-- Claim C5: with sorted disjoint intervals and a pointer state consistent
with non-decreasing query starts, `compute_blacklist_overlap` returns exactly
(number of covered positions of the window) / (window length); in particular
1 when some interval contains the window and 0 when the window is disjoint
from all intervals. -/
theorem claim_C5_overlap_fraction (intervals : List (Nat × Nat)) (start end_ ptr : Nat)
    (hsort : List.Pairwise (fun a b : Nat × Nat => a.2 ≤ b.1) intervals)
    (hwf : ∀ iv ∈ intervals, iv.1 ≤ iv.2)
    (hlt : start < end_)
    (hptr : ∀ iv ∈ intervals.take ptr, iv.2 ≤ start) :
    (compute_blacklist_overlap intervals start end_ ptr).1
        = (coveredCount intervals start end_ : ℚ) / ((end_ - start : Nat) : ℚ) ∧
    ((∃ iv ∈ intervals, iv.1 ≤ start ∧ end_ ≤ iv.2) →
        (compute_blacklist_overlap intervals start end_ ptr).1 = 1) ∧
    ((∀ p, start ≤ p → p < end_ → ¬ covers intervals p) →
        (compute_blacklist_overlap intervals start end_ ptr).1 = 0) := by
  have hdd : (intervals.drop ptr).drop (skipCount start (intervals.drop ptr))
      = intervals.drop (ptr + skipCount start (intervals.drop ptr)) :=
    List.drop_drop _ _ _
  have hpref : ∀ iv ∈ intervals.take (ptr + skipCount start (intervals.drop ptr)),
      iv.2 ≤ start := by
    intro iv hiv
    rw [List.take_add] at hiv
    rcases List.mem_append.mp hiv with h | h
    · exact hptr iv h
    · exact skipCount_take start (intervals.drop ptr) iv h
  have hm_sub : List.Sublist
      (intervals.drop (ptr + skipCount start (intervals.drop ptr))) intervals :=
    List.drop_sublist _ _
  have hm_sort := List.Pairwise.sublist hm_sub hsort
  have hm_wf : ∀ iv ∈ intervals.drop (ptr + skipCount start (intervals.drop ptr)),
      iv.1 ≤ iv.2 := fun iv hiv => hwf iv (hm_sub.mem hiv)
  have hcount : coveredCount
        (intervals.drop (ptr + skipCount start (intervals.drop ptr))) start end_
      = coveredCount intervals start end_ := by
    unfold coveredCount
    congr 1
    apply Finset.filter_congr
    intro p hp
    rw [Finset.mem_Ico] at hp
    exact (covers_drop_iff hpref hp.1).symm
  have hfrac : (compute_blacklist_overlap intervals start end_ ptr).1
      = (coveredCount intervals start end_ : ℚ) / ((end_ - start : Nat) : ℚ) := by
    show (sumOverlap start end_
        ((intervals.drop ptr).drop (skipCount start (intervals.drop ptr))) : ℚ)
        / ((end_ - start : Nat) : ℚ) = _
    rw [hdd, sumOverlap_spec start end_ _ hm_sort hm_wf, hcount]
  refine ⟨hfrac, ?_, ?_⟩
  · rintro ⟨iv, hiv, h1, h2⟩
    rw [hfrac]
    have hfull : coveredCount intervals start end_ = end_ - start := by
      unfold coveredCount
      rw [Finset.filter_true_of_mem, Nat.card_Ico]
      intro p hp
      rw [Finset.mem_Ico] at hp
      exact ⟨iv, hiv, by omega⟩
    rw [hfull]
    rw [div_self (by exact_mod_cast Nat.sub_ne_zero_of_lt hlt)]
  · intro hnone
    rw [hfrac]
    have hzero : coveredCount intervals start end_ = 0 := by
      unfold coveredCount
      rw [Finset.card_eq_zero, Finset.filter_eq_empty_iff]
      intro p hp
      rw [Finset.mem_Ico] at hp
      exact hnone p hp.1 hp.2
    rw [hzero]
    simp

/-- Witness for C5: intervals `[(2,6)]`, window `[0,4)`, fresh pointer. -/
theorem claim_C5_witness :
    (0 : Nat) < 4 ∧
    ((compute_blacklist_overlap [(2, 6)] 0 4 0).1
        = (coveredCount [(2, 6)] 0 4 : ℚ) / (((4 : Nat) - 0 : Nat) : ℚ) ∧
     ((∃ iv ∈ ([(2, 6)] : List (Nat × Nat)), iv.1 ≤ 0 ∧ 4 ≤ iv.2) →
        (compute_blacklist_overlap [(2, 6)] 0 4 0).1 = 1) ∧
     ((∀ p, 0 ≤ p → p < 4 → ¬ covers [(2, 6)] p) →
        (compute_blacklist_overlap [(2, 6)] 0 4 0).1 = 0)) :=
  ⟨by decide,
    claim_C5_overlap_fraction [(2, 6)] 0 4 0 (by decide) (by decide) (by decide)
      (by decide)⟩

/-! ## WindowedCounter (`src/reference/counting.rs` and the scan loop of
`process_chrom` in `src/bin/reference.rs`) -/

/-- `struct Kmer { k: u8, code: u64 }`. -/
structure Kmer where
  k : Nat
  code : Nat
deriving DecidableEq, Repr

/-- `struct Enc` from `counting.rs`: k, the per-position code vector, and the
two sentinels (fields `none` and `n` in the source). -/
structure Enc where
  k : Nat
  codes : List Nat
  none : Nat
  n : Nat

/-- `count_kmers_by_window` (library scan): for each window, every position of
the clipped range contributes one `Kmer` per enc whose k-mer still fits inside
the window (`remaining < enc.k` skips) and whose code is not a sentinel.  The
Rust per-window hash map is the tally of this occurrence list, so a window's
count map for a given k is empty iff no occurrence with that k is listed. -/
def count_kmers_by_window (encs : List Enc) (windows : List (Nat × Nat × Nat))
    (chrom_len : Nat) : List (List Kmer) :=
  windows.map (fun w =>
    (List.range' w.1 (min w.2.1 chrom_len - w.1)).flatMap (fun ref_pos =>
      encs.filterMap (fun enc =>
        if min w.2.1 chrom_len - ref_pos < enc.k then Option.none
        else if enc.codes.getD ref_pos 0 = enc.none
            ∨ enc.codes.getD ref_pos 0 = enc.n then Option.none
        else Option.some ⟨enc.k, enc.codes.getD ref_pos 0⟩)))

/-- The scan loop of `process_chrom` in `src/bin/reference.rs`: identical to
the library scan except that it has no `remaining < enc.k` check — it relies
solely on the codec's sentinels. -/
def process_chrom_scan (encs : List Enc) (windows : List (Nat × Nat × Nat))
    (chrom_len : Nat) : List (List Kmer) :=
  windows.map (fun w =>
    (List.range' w.1 (min w.2.1 chrom_len - w.1)).flatMap (fun ref_pos =>
      encs.filterMap (fun enc =>
        if enc.codes.getD ref_pos 0 = enc.none
            ∨ enc.codes.getD ref_pos 0 = enc.n then Option.none
        else Option.some ⟨enc.k, enc.codes.getD ref_pos 0⟩)))

/-- Claim C3 (amended): in the library scan `count_kmers_by_window`, a window
whose clipped length is shorter than k yields an empty count map for that k
(no occurrence with that k is recorded); the binary's scan loop does not have
this property (see the counterexample). -/
theorem claim_C3_short_window_empty (encs : List Enc)
    (windows : List (Nat × Nat × Nat)) (chrom_len i k' : Nat)
    (hi : i < windows.length)
    (hshort : min (windows.getD i (0, 0, 0)).2.1 chrom_len
        - (windows.getD i (0, 0, 0)).1 < k') :
    ∀ km ∈ (count_kmers_by_window encs windows chrom_len).getD i [], km.k ≠ k' := by
  intro km hkm
  have hmap : (count_kmers_by_window encs windows chrom_len).getD i []
      = (List.range' (windows.getD i (0, 0, 0)).1
            (min (windows.getD i (0, 0, 0)).2.1 chrom_len
              - (windows.getD i (0, 0, 0)).1)).flatMap (fun ref_pos =>
          encs.filterMap (fun enc =>
            if min (windows.getD i (0, 0, 0)).2.1 chrom_len - ref_pos < enc.k
            then Option.none
            else if enc.codes.getD ref_pos 0 = enc.none
               ∨ enc.codes.getD ref_pos 0 = enc.n then Option.none
            else Option.some ⟨enc.k, enc.codes.getD ref_pos 0⟩)) := by
    unfold count_kmers_by_window
    rw [List.getD_eq_getElem?_getD, List.getElem?_map, List.getElem?_eq_getElem hi,
      List.getD_eq_getElem?_getD, List.getElem?_eq_getElem hi]
    rfl
  rw [hmap] at hkm
  obtain ⟨pos, hpos, hocc⟩ := List.mem_flatMap.mp hkm
  obtain ⟨hge, _⟩ := (List.mem_range'_1).mp hpos
  obtain ⟨enc, _, heq⟩ := List.mem_filterMap.mp hocc
  by_cases h1 : min (windows.getD i (0, 0, 0)).2.1 chrom_len - pos < enc.k
  · rw [if_pos h1] at heq
    exact Option.noConfusion heq
  · rw [if_neg h1] at heq
    by_cases h2 : enc.codes.getD pos 0 = enc.none ∨ enc.codes.getD pos 0 = enc.n
    · rw [if_pos h2] at heq
      exact Option.noConfusion heq
    · rw [if_neg h2] at heq
      have hkk : km.k = enc.k := by
        cases heq
        rfl
      intro hk'
      omega

/-- Witness for C3: a 4-long window with k = 6 inside a 9-base chromosome of
`A`s — the library scan records nothing for k = 6. -/
theorem claim_C3_witness :
    (0 : Nat) < 1 ∧
    min ((([(0, 4, 0)] : List (Nat × Nat × Nat)).getD 0 (0, 0, 0)).2.1) 9
      - (([(0, 4, 0)] : List (Nat × Nat × Nat)).getD 0 (0, 0, 0)).1 < 6 ∧
    (∀ km ∈ (count_kmers_by_window
        [⟨6, build_codes (List.replicate 9 65) 6 65535 65534, 65535, 65534⟩]
        [(0, 4, 0)] 9).getD 0 [], km.k ≠ 6) :=
  ⟨by decide, by decide,
    claim_C3_short_window_empty
      [⟨6, build_codes (List.replicate 9 65) 6 65535 65534, 65535, 65534⟩]
      [(0, 4, 0)] 9 0 6 (by decide) (by decide)⟩

/-- Counterexample to C3 as stated for the binary's scan loop: the same
4-long window with k = 6 in a 9-base all-`A` chromosome does record k = 6
k-mers (their windows extend past the window end but lie inside the
sequence, so their codes are not sentinels). -/
theorem claim_C3_counterexample :
    min ((([(0, 4, 0)] : List (Nat × Nat × Nat)).getD 0 (0, 0, 0)).2.1) 9
      - (([(0, 4, 0)] : List (Nat × Nat × Nat)).getD 0 (0, 0, 0)).1 < 6 ∧
    ∃ km ∈ (process_chrom_scan
        [⟨6, build_codes (List.replicate 9 65) 6 65535 65534, 65535, 65534⟩]
        [(0, 4, 0)] 9).getD 0 [], km.k = 6 := by
  refine ⟨by decide, by decide⟩

/-! ## Canonicalizer (`src/reference/process_counts.rs`)

Motifs are modelled as their character lists; Rust's byte-lexicographic
`String` comparison coincides with the lexicographic order on `List Char` for
the ASCII motifs this code handles. -/

/-- `fn comp(b: char) -> char`: complement of a single base. -/
def comp (b : Char) : Char :=
  if b = 'A' ∨ b = 'a' then 'T'
  else if b = 'T' ∨ b = 't' then 'A'
  else if b = 'C' ∨ b = 'c' then 'G'
  else if b = 'G' ∨ b = 'g' then 'C'
  else if b = 'N' ∨ b = 'n' then 'N'
  else b

/-- `fn revcomp(seq: &str) -> String`: reverse then complement each char. -/
def revcomp (seq : List Char) : List Char :=
  (seq.reverse).map comp

/-- `fn canonical(kmer: String) -> String`: the lexicographically smaller of
the motif and its reverse complement. -/
def canonical (kmer : List Char) : List Char :=
  if kmer ≤ revcomp kmer then kmer else revcomp kmer

/-- The alphabet actually reaching `canonical` in the pipeline (decoded
motifs): uppercase bases and `N`. -/
def decodedAlphabet : List Char := ['A', 'C', 'G', 'T', 'N']

theorem comp_comp_of_decoded {c : Char} (h : c ∈ decodedAlphabet) :
    comp (comp c) = c := by
  unfold decodedAlphabet at h
  rcases (by simpa using h : c = 'A' ∨ c = 'C' ∨ c = 'G' ∨ c = 'T' ∨ c = 'N')
    with rfl | rfl | rfl | rfl | rfl <;> rfl

theorem revcomp_revcomp {m : List Char} (h : ∀ c ∈ m, c ∈ decodedAlphabet) :
    revcomp (revcomp m) = m := by
  unfold revcomp
  rw [List.map_reverse, List.map_map]
  have hpt : ∀ c ∈ m.reverse, (comp ∘ comp) c = id c := by
    intro c hc
    simp [comp_comp_of_decoded (h c (List.mem_reverse.mp hc))]
  rw [List.map_congr_left hpt, List.map_id, List.reverse_reverse]

/-- Claim C6 (amended): over motifs drawn from the decoded alphabet
A/C/G/T/N — the only motifs the pipeline feeds to `canonical` — folding is
idempotent, strand-symmetric, and fixes palindromic motifs. -/
theorem claim_C6_canonical_fold (m : List Char)
    (h : ∀ c ∈ m, c ∈ decodedAlphabet) :
    canonical (canonical m) = canonical m ∧
    canonical m = canonical (revcomp m) ∧
    (revcomp m = m → canonical m = m) := by
  have hrr : revcomp (revcomp m) = m := revcomp_revcomp h
  refine ⟨?_, ?_, ?_⟩
  · unfold canonical
    by_cases h1 : m ≤ revcomp m
    · rw [if_pos h1, if_pos h1]
    · rw [if_neg h1, hrr, if_pos (le_of_not_le h1)]
  · unfold canonical
    rw [hrr]
    by_cases h1 : m ≤ revcomp m
    · rw [if_pos h1]
      by_cases h2 : revcomp m ≤ m
      · rw [if_pos h2]
        exact le_antisymm h1 h2
      · rw [if_neg h2]
    · rw [if_neg h1, if_pos (le_of_not_le h1)]
  · intro hpal
    unfold canonical
    rw [hpal]
    simp

/-- Witness for C6 at motif "AC". -/
theorem claim_C6_witness :
    (∀ c ∈ (['A', 'C'] : List Char), c ∈ decodedAlphabet) ∧
    (canonical (canonical ['A', 'C']) = canonical ['A', 'C'] ∧
     canonical ['A', 'C'] = canonical (revcomp ['A', 'C']) ∧
     (revcomp ['A', 'C'] = ['A', 'C'] → canonical ['A', 'C'] = ['A', 'C'])) :=
  ⟨by decide, claim_C6_canonical_fold ['A', 'C'] (by decide)⟩

/-- Counterexample to C6 as stated: on the lowercase motif "a" the fold is
neither idempotent nor strand-symmetric, because `comp` maps 'a' to 'T' but
'T' back to 'A'. -/
theorem claim_C6_counterexample :
    canonical (canonical ['a']) ≠ canonical ['a'] ∧
    canonical ['a'] ≠ canonical (revcomp ['a']) := by
  refine ⟨by decide, by decide⟩

/-! ## OutputSerializer, sparse path (`src/reference/write.rs`)

`write_category_sparse` iterates the per-window maps with row index `r`, looks
up each motif's column in the `motif_index` map built from the ordered motif
list (for a duplicate-free motif list the hash map sends each motif to its
unique index, modelled by `findIdx?`), and pushes one `(row, col, value)`
triple per hit; the three parallel `Vec`s are the projections of this triple
list.  Map iteration order is irrelevant to the membership statements proved
here. -/

def sparse_triples_aux (motifs : List String) :
    Nat → List (List (String × Nat)) → List (Nat × Nat × Nat)
  | _, [] => []
  | r, hm :: rest =>
    hm.filterMap (fun mc =>
      (motifs.findIdx? (fun x => x == mc.1)).map (fun ci => (r, ci, mc.2)))
    ++ sparse_triples_aux motifs (r + 1) rest

/-- The `(row, col, value)` triples collected by `write_category_sparse`. -/
def sparse_triples (bins : List (List (String × Nat))) (motifs : List String) :
    List (Nat × Nat × Nat) :=
  sparse_triples_aux motifs 0 bins

/-- The `row` array of `write_category_sparse` (stored as `u64` in Rust). -/
def sparse_row (bins : List (List (String × Nat))) (motifs : List String) : List Nat :=
  (sparse_triples bins motifs).map (fun t => t.1)

/-- The `col` array of `write_category_sparse` (stored as `u64` in Rust). -/
def sparse_col (bins : List (List (String × Nat))) (motifs : List String) : List Nat :=
  (sparse_triples bins motifs).map (fun t => t.2.1)

/-- The `data` array of `write_category_sparse`. -/
def sparse_val (bins : List (List (String × Nat))) (motifs : List String) : List Nat :=
  (sparse_triples bins motifs).map (fun t => t.2.2)

theorem findIdx?_spec_of_nodup (m : String) :
    ∀ (motifs : List String), motifs.Nodup → ∀ c : Nat,
      (motifs.findIdx? (fun x => x == m) = some c
        ↔ c < motifs.length ∧ motifs.getD c "" = m) := by
  intro motifs
  induction motifs with
  | nil => intro _ c; simp
  | cons x rest ih =>
    intro hnd c
    rw [List.findIdx?_cons]
    by_cases hx : x == m
    · rw [if_pos hx]
      have hxm : x = m := by simpa using hx
      constructor
      · intro h
        have hc : c = 0 := by
          have := Option.some.inj h
          omega
        subst hc
        exact ⟨by simp, by simpa using hxm⟩
      · rintro ⟨hlt, hget⟩
        cases c with
        | zero => rfl
        | succ q =>
          exfalso
          have hq : q < rest.length := by simp at hlt; omega
          have hgq : rest.getD q "" = m := by simpa using hget
          have hmem : m ∈ rest := by
            rw [← hgq, List.getD_eq_getElem?_getD, List.getElem?_eq_getElem hq]
            exact List.getElem_mem hq
          subst hxm
          exact (List.nodup_cons.mp hnd).1 hmem
    · rw [if_neg hx]
      rw [List.findIdx?_succ]
      constructor
      · intro h
        obtain ⟨q, hq, hqc⟩ := Option.map_eq_some'.mp h
        obtain ⟨h1, h2⟩ := (ih hnd.of_cons q).mp hq
        subst hqc
        exact ⟨by simp; omega, by simpa using h2⟩
      · rintro ⟨hlt, hget⟩
        cases c with
        | zero =>
          exfalso
          have : x = m := by simpa using hget
          subst this
          simp at hx
        | succ q =>
          have hq : q < rest.length := by simp at hlt; omega
          have hg : rest.getD q "" = m := by simpa using hget
          rw [(ih hnd.of_cons q).mpr ⟨hq, hg⟩]
          rfl

theorem mem_sparse_triples_aux (motifs : List String) (hnd : motifs.Nodup) :
    ∀ (bins : List (List (String × Nat))) (r0 j c v : Nat),
      ((j, c, v) ∈ sparse_triples_aux motifs r0 bins
        ↔ r0 ≤ j ∧ j - r0 < bins.length ∧ c < motifs.length ∧
          (motifs.getD c "", v) ∈ bins.getD (j - r0) []) := by
  intro bins
  induction bins with
  | nil => intro r0 j c v; simp [sparse_triples_aux]
  | cons hm rest ih =>
    intro r0 j c v
    rw [sparse_triples_aux]
    rw [List.mem_append, List.mem_filterMap, ih (r0 + 1)]
    constructor
    · rintro (⟨mc, hmc, hmap⟩ | ⟨h1, h2, h3, h4⟩)
      · obtain ⟨ci, hci, htrip⟩ := Option.map_eq_some'.mp hmap
        rw [Prod.mk.injEq, Prod.mk.injEq] at htrip
        obtain ⟨hj, hc, hv⟩ := htrip
        subst hj
        subst hc
        subst hv
        obtain ⟨hlt, hget⟩ := (findIdx?_spec_of_nodup mc.1 motifs hnd ci).mp hci
        refine ⟨Nat.le_refl _, by simp, hlt, ?_⟩
        rw [Nat.sub_self]
        rw [hget]
        simpa using hmc
      · refine ⟨by omega, ?_, h3, ?_⟩
        · simp
          omega
        · have harith : j - r0 = (j - (r0 + 1)) + 1 := by omega
          rw [harith]
          simpa using h4
    · rintro ⟨h1, h2, h3, h4⟩
      rcases Nat.eq_or_lt_of_le h1 with heq | hlt
      · subst heq
        left
        refine ⟨(motifs.getD c "", v), ?_, ?_⟩
        · rw [Nat.sub_self] at h4
          simpa using h4
        · rw [(findIdx?_spec_of_nodup (motifs.getD c "") motifs hnd c).mpr ⟨h3, rfl⟩]
          rfl
      · right
        refine ⟨by omega, by simp at h2; omega, h3, ?_⟩
        have harith : j - r0 = (j - (r0 + 1)) + 1 := by omega
        rw [harith] at h4
        simpa using h4

/-- Claim C8: for non-empty bins with only non-zero stored counts and a
duplicate-free motif universe, the sparse row/col/value arrays have equal
lengths and hold exactly the (window, motif) pairs whose map stores a motif of
the universe with a non-zero count. -/
theorem claim_C8_sparse_coo (bins : List (List (String × Nat))) (motifs : List String)
    (_hne : bins ≠ [])
    (hnz : ∀ hm ∈ bins, ∀ mc ∈ hm, mc.2 ≠ 0)
    (hnd : motifs.Nodup) :
    (sparse_row bins motifs).length = (sparse_col bins motifs).length ∧
    (sparse_col bins motifs).length = (sparse_val bins motifs).length ∧
    (∀ j c v, ((j, c, v) ∈ sparse_triples bins motifs ↔
      (j < bins.length ∧ c < motifs.length ∧
        (motifs.getD c "", v) ∈ bins.getD j [] ∧ v ≠ 0))) := by
  refine ⟨by simp [sparse_row, sparse_col], by simp [sparse_col, sparse_val], ?_⟩
  intro j c v
  rw [show sparse_triples bins motifs = sparse_triples_aux motifs 0 bins from rfl]
  rw [mem_sparse_triples_aux motifs hnd bins 0 j c v]
  constructor
  · rintro ⟨_, h2, h3, h4⟩
    rw [Nat.sub_zero] at h2 h4
    refine ⟨h2, h3, h4, ?_⟩
    have hbin : bins.getD j [] ∈ bins := by
      rw [List.getD_eq_getElem?_getD, List.getElem?_eq_getElem h2]
      exact List.getElem_mem h2
    exact hnz _ hbin _ h4
  · rintro ⟨h1, h2, h3, _⟩
    exact ⟨Nat.zero_le _, by omega, h2, by simpa using h3⟩

/-- Witness for C8: two windows, one stored count. -/
theorem claim_C8_witness :
    ([[("AC", 2)], []] : List (List (String × Nat))) ≠ [] ∧
    (["AA", "AC"] : List String).Nodup ∧
    ((sparse_row [[("AC", 2)], []] ["AA", "AC"]).length
        = (sparse_col [[("AC", 2)], []] ["AA", "AC"]).length ∧
     (sparse_col [[("AC", 2)], []] ["AA", "AC"]).length
        = (sparse_val [[("AC", 2)], []] ["AA", "AC"]).length ∧
     (∀ j c v, ((j, c, v) ∈ sparse_triples [[("AC", 2)], []] ["AA", "AC"] ↔
       (j < ([[("AC", 2)], []] : List (List (String × Nat))).length ∧
        c < (["AA", "AC"] : List String).length ∧
        ((["AA", "AC"] : List String).getD c "", v)
            ∈ ([[("AC", 2)], []] : List (List (String × Nat))).getD j [] ∧
        v ≠ 0)))) :=
  ⟨by decide, by decide,
    claim_C8_sparse_coo [[("AC", 2)], []] ["AA", "AC"] (by decide) (by decide)
      (by decide)⟩
